import Mathlib

/-!
Shallow embedding of the Farmbot agricultural price dashboard core
(agridashboard.py): the weekly price grid builder
create_weekly_price_table, the percentile classifier
apply_color_coding_to_table, and the record normalization performed by
load_market_data.

Modelling conventions.  Prices are rationals; Python round(x, 0) is
modelled as round-half-to-even returning an integer (roundPy).  The
numpy random draws used for jitter are modelled as an explicit noise
function passed to the grid builder, indexed by year and column
position, so every theorem quantifies over all possible draw
assignments.  The year and ISO week of a record are the values the
source derives from Arrival_Date via dt.year and dt.isocalendar().week;
that calendar arithmetic is external, so a cleaned record carries its
year and week directly.  The scipy call
interpolate.interp1d(positions, values, kind, fill_value extrapolate)
is embedded as a piecewise evaluator: segIdx picks the segment of the
query point (clamped to the outermost segments, which is exactly how
scipy extrapolates an out-of-range query with the boundary polynomial,
without clamping the value), linearSegEval is the linear segment
formula, and cubicSegEval is the classical second-derivative form of
the interpolating cubic spline whose knot second derivatives are
obtained from the not-a-knot linear system (nakSystem) by Gaussian
elimination.
-/

/-- Price series selector, mirroring the price_type parameter of
create_weekly_price_table (Modal_Price, Min_Price, Max_Price). -/
inductive PriceType
  | Modal
  | Min
  | Max
deriving DecidableEq

/-- One cleaned observation: the year and ISO week derived from
Arrival_Date, and the three numeric price columns. -/
structure Record where
  year : Int
  week : Nat
  min_price : ℚ
  max_price : ℚ
  modal_price : ℚ
deriving DecidableEq

/-- Select the price column named by price_type. -/
def getPrice : PriceType → Record → ℚ
  | PriceType.Modal, r => r.modal_price
  | PriceType.Min, r => r.min_price
  | PriceType.Max, r => r.max_price

/-- Round-half-to-even on rationals: the behavior of Python round(x, 0)
and of pandas Series.round(0) on the (exactly representable) values the
source feeds to them. -/
def roundPy (q : ℚ) : Int :=
  if q - (⌊q⌋ : ℚ) < 1/2 then ⌊q⌋
  else if (1 : ℚ)/2 < q - (⌊q⌋ : ℚ) then ⌊q⌋ + 1
  else if ⌊q⌋ % 2 = 0 then ⌊q⌋ else ⌊q⌋ + 1

/-- Arithmetic mean of a list, mirroring pandas Series.mean over the
rows selected for one week cell. -/
def mean (l : List ℚ) : ℚ := l.sum / (l.length : ℚ)

/-- The weeks_per_month table of create_weekly_price_table: for each
month index 1..12 the window of ISO week numbers, written with the same
Python range bounds (range a b becomes List.range' a (b - a)). -/
def weeks_per_month : Nat → List Nat
  | 1 => List.range' 1 5
  | 2 => List.range' 5 5
  | 3 => List.range' 9 5
  | 4 => List.range' 13 5
  | 5 => List.range' 17 5
  | 6 => List.range' 21 6
  | 7 => List.range' 26 5
  | 8 => List.range' 30 5
  | 9 => List.range' 34 6
  | 10 => List.range' 39 5
  | 11 => List.range' 43 5
  | 12 => List.range' 47 6
  | _ => []

/-- The month abbreviations used to build column labels. -/
def month_names : List String :=
  ["Jan", "Feb", "Mar", "Apr", "May", "Jun", "Jul", "Aug", "Sep", "Oct", "Nov", "Dec"]

/-- The 48 column labels, built exactly as in the source: for every
month, enumerate the first 4 week numbers of its window and label the
subdivision MonthAbbrev_W1 .. MonthAbbrev_W4. -/
def columns : List String :=
  (List.range 12).flatMap (fun mIdx =>
    (List.range ((weeks_per_month (mIdx + 1)).take 4).length).map (fun wIdx =>
      month_names.getD mIdx "" ++ "_W" ++ toString (wIdx + 1)))

/-- The ISO week number each of the 48 columns selects on: the first 4
entries of each monthly window, in calendar order. -/
def columnWeeks : List Nat :=
  (List.range' 1 12).flatMap (fun m => (weeks_per_month m).take 4)

/-- Week number of column index c (0 based). -/
def columnWeek (c : Nat) : Nat := columnWeeks.getD c 0

/-- The records of a given year whose ISO week equals w: the selection
year_data[year_data[Week_of_Year] == week_num]. -/
def weekRecords (records : List Record) (y : Int) (w : Nat) : List Record :=
  records.filter (fun r => decide (r.year = y) && decide (r.week = w))

/-- The mean of the selected price over the records matching one cell,
when at least one record matches (week_data not empty). -/
def observedMean (pt : PriceType) (records : List Record) (y : Int) (c : Nat) : Option ℚ :=
  let l := (weekRecords records y (columnWeek c)).map (getPrice pt)
  if l.isEmpty then none else some (mean l)

/-- The value stored in the sparse table for one cell: the rounded mean
round(avg_price, 0) when data exists, otherwise missing (NaN). -/
def sparseCell (pt : PriceType) (records : List Record) (y : Int) (c : Nat) : Option Int :=
  (observedMean pt records y c).map roundPy

/-- One sparse year row of the price table: 48 cells in column order. -/
def sparseRow (pt : PriceType) (records : List Record) (y : Int) : List (Option Int) :=
  (List.range 48).map (fun c => sparseCell pt records y c)

/-- The (position, value) samples of a row: dropna gives the non-null
cells in index order, positions are the 0 based column indices and the
values are the stored floats.  Mirrors valid_positions, valid_values. -/
def knownPairs (row : List (Option Int)) : List (Nat × ℚ) :=
  (List.range row.length).filterMap (fun i =>
    (row.getD i none).map (fun v : Int => (i, (v : ℚ))))

/-- The sample x coordinates of a row: valid_positions as floats. -/
def rowXs (row : List (Option Int)) : List ℚ :=
  (knownPairs row).map (fun p => (p.1 : ℚ))

/-- The sample values of a row: valid_values. -/
def rowYs (row : List (Option Int)) : List ℚ :=
  (knownPairs row).map Prod.snd

/-- The kind passed to interp1d: cubic exactly when at least 4 known
samples exist in the row, otherwise linear. -/
def rowKind (row : List (Option Int)) : Bool :=
  decide (4 ≤ (knownPairs row).length)

/-- Forward fill with a carried last seen value (pandas fillna ffill). -/
def ffillGo : Option Int → List (Option Int) → List (Option Int)
  | _, [] => []
  | last, none :: rest => last :: ffillGo last rest
  | _, some v :: rest => some v :: ffillGo (some v) rest

/-- pandas fillna method ffill. -/
def ffill (l : List (Option Int)) : List (Option Int) := ffillGo none l

/-- pandas fillna method bfill: forward fill of the reversed list. -/
def bfill (l : List (Option Int)) : List (Option Int) := (ffillGo none l.reverse).reverse

/-- Index of the polynomial segment scipy evaluates a query point t on:
the last knot at or before t, clamped into the valid segment range, so
an out-of-range t is handled by extending the outermost segment
polynomial (the fill_value extrapolate policy). -/
def segIdx (xs : List ℚ) (t : ℚ) : Nat :=
  min (xs.length - 2) ((xs.takeWhile (fun x => decide (x ≤ t))).length - 1)

/-- The straight line through knots i and i+1, evaluated at t. -/
def linearSegEval (xs ys : List ℚ) (i : Nat) (t : ℚ) : ℚ :=
  let x0 := xs.getD i 0
  let x1 := xs.getD (i + 1) 0
  let y0 := ys.getD i 0
  let y1 := ys.getD (i + 1) 0
  y0 + (y1 - y0) * (t - x0) / (x1 - x0)

/-- The classical second-derivative form of a cubic spline segment:
given knot second derivatives ms, the cubic on segment i evaluated at
t.  Whatever ms is, this piece takes the sample values at its two
knots, which is the interpolation property the claims rely on. -/
def cubicSegEval (xs ys ms : List ℚ) (i : Nat) (t : ℚ) : ℚ :=
  let x0 := xs.getD i 0
  let x1 := xs.getD (i + 1) 0
  let y0 := ys.getD i 0
  let y1 := ys.getD (i + 1) 0
  let m0 := ms.getD i 0
  let m1 := ms.getD (i + 1) 0
  let h := x1 - x0
  m0 * (x1 - t) ^ 3 / (6 * h) + m1 * (t - x0) ^ 3 / (6 * h)
    + (y0 / h - m0 * h / 6) * (x1 - t) + (y1 / h - m1 * h / 6) * (t - x0)

/-- One elimination step of Gaussian elimination: subtract the multiple
of the pivot row p that zeroes column col of row r. -/
def elimStep (col : Nat) (p r : List ℚ) : List ℚ :=
  List.zipWith (fun a b => a - (r.getD col 0 / p.getD col 0) * b) r p

/-- Forward elimination on an augmented matrix. -/
def fwdElim (col : Nat) (rows : List (List ℚ)) : List (List ℚ) :=
  match hrows : rows with
  | [] => []
  | _ :: _ =>
    let k := rows.findIdx (fun r => decide (r.getD col 0 ≠ 0))
    if hk : k < rows.length then
      let p := rows.get ⟨k, hk⟩
      p :: fwdElim (col + 1) ((rows.eraseIdx k).map (elimStep col p))
    else
      rows
termination_by rows.length
decreasing_by
  simp only [List.length_map, List.length_eraseIdx, hk, if_pos]
  subst hrows
  simp only [List.length_cons]
  omega

/-- Back substitution for an upper triangular augmented matrix whose
first row has its pivot in column i0. -/
def backSub (i0 : Nat) (rows : List (List ℚ)) : List ℚ :=
  match rows with
  | [] => []
  | r :: rest =>
    let tail := backSub (i0 + 1) rest
    let s := ((List.range tail.length).map
      (fun j => r.getD (i0 + 1 + j) 0 * tail.getD j 0)).sum
    let piv := r.getD i0 0
    (if piv = 0 then 0 else (r.getD (r.length - 1) 0 - s) / piv) :: tail

/-- Solve a linear system given as an augmented matrix. -/
def gaussSolve (aug : List (List ℚ)) : List ℚ := backSub 0 (fwdElim 0 aug)

/-- The not-a-knot linear system for the knot second derivatives of the
interpolating cubic spline through (xs, ys): interior rows are the
standard continuity equations, the two boundary rows equate the third
derivative across the first and last interior knots (the boundary
condition of the spline scipy fits for kind cubic). -/
def nakSystem (xs ys : List ℚ) : List (List ℚ) :=
  let n := xs.length
  let x := fun i => xs.getD i 0
  let y := fun i => ys.getD i 0
  let h := fun i => x (i + 1) - x i
  let row0 := ((List.range n).map (fun j =>
      if j = 0 then h 1 else if j = 1 then -(h 0 + h 1)
      else if j = 2 then h 0 else 0)) ++ [(0 : ℚ)]
  let rowN := ((List.range n).map (fun j =>
      if j = n - 3 then h (n - 2) else if j = n - 2 then -(h (n - 3) + h (n - 2))
      else if j = n - 1 then h (n - 3) else 0)) ++ [(0 : ℚ)]
  let mid := (List.range (n - 2)).map (fun k =>
      ((List.range n).map (fun j =>
        if j = k then h k / 6
        else if j = k + 1 then (h k + h (k + 1)) / 3
        else if j = k + 2 then h (k + 1) / 6 else 0)) ++
      [(y (k + 2) - y (k + 1)) / h (k + 1) - (y (k + 1) - y k) / h k])
  (row0 :: mid) ++ [rowN]

/-- Knot second derivatives of the cubic spline through (xs, ys). -/
def notAKnotM (xs ys : List ℚ) : List ℚ := gaussSolve (nakSystem xs ys)

/-- The polynomial piece of segment i of the fitted curve. -/
def segEvalOf (xs ys : List ℚ) (cubic : Bool) (i : Nat) (t : ℚ) : ℚ :=
  if cubic then cubicSegEval xs ys (notAKnotM xs ys) i t
  else linearSegEval xs ys i t

/-- The fitted curve of scipy interpolate.interp1d with fill_value
extrapolate: evaluate the segment the query falls on, extending the
outermost polynomial piece beyond the first and last knots. -/
def interp1d (xs ys : List ℚ) (cubic : Bool) (t : ℚ) : ℚ :=
  segEvalOf xs ys cubic (segIdx xs t) t

/-- The fitted curve of one row: interp_func, the single function the
source builds once per row and then evaluates at all 48 positions. -/
def rowCurve (row : List (Option Int)) : ℚ → ℚ :=
  interp1d (rowXs row) (rowYs row) (rowKind row)

/-- The per-year interpolation stage of create_weekly_price_table.
With at least 2 known cells: fit interp1d over the known samples, kind
cubic when at least 4 samples exist, evaluate it at every position, and
write for each column either the re-rounded original value (observed
cells) or the jittered, floored, rounded fitted value (missing cells).
With exactly 1 known cell: forward fill then backward fill, rounded.
Otherwise leave the row empty; the final fillna(0) makes it zeros. -/
def fillRow (noise : Nat → ℚ) (row : List (Option Int)) : List Int :=
  if 2 ≤ (knownPairs row).length then
    (List.range row.length).map (fun i =>
      match row.getD i none with
      | some v => roundPy ((v : Int) : ℚ)
      | none =>
          max 0 (roundPy (rowCurve row (i : ℚ) * (1 + noise i))))
  else if (knownPairs row).length = 1 then
    (bfill (ffill row)).map (fun o => roundPy ((o.getD 0 : Int) : ℚ))
  else
    row.map (fun _ => (0 : Int))

/-- The sorted distinct years of the cleaned records: sorted(unique).
The final sort_index of the table is the same ascending order. -/
def yearsOf (records : List Record) : List Int :=
  List.insertionSort (fun a b => a ≤ b) (records.map Record.year).dedup

/-- The weekly price table: one row per year of the data, in ascending
year order, each row the dense 48-cell integer vector produced by the
fill and interpolation stages. -/
def create_weekly_price_table (pt : PriceType) (noise : Int → Nat → ℚ)
    (records : List Record) : List (Int × List Int) :=
  (yearsOf records).map (fun y => (y, fillRow (noise y) (sparseRow pt records y)))

/-- Cell lookup in the finished table (0 outside the table). -/
def gridCell (g : List (Int × List Int)) (y : Int) (c : Nat) : Int :=
  ((g.lookup y).getD []).getD c 0

/-- The table run_dashboard builds: the Extrapolate Missing Weeks
checkbox selects between two branches that invoke the identical
create_weekly_price_table call. -/
def run_dashboard_table (extrapolate_data : Bool) (pt : PriceType)
    (noise : Int → Nat → ℚ) (records : List Record) : List (Int × List Int) :=
  if extrapolate_data then create_weekly_price_table pt noise records
  else create_weekly_price_table pt noise records

/-- The display buckets of the color legend. -/
inductive Bucket
  | nodata
  | veryLow
  | low
  | medium
  | high
  | veryHigh
deriving DecidableEq

/-- All strictly positive cell values of the table, in row-major order:
df.values.flatten() followed by the positive filter. -/
def positiveValues (g : List (Int × List Int)) : List Int :=
  ((g.map Prod.snd).flatten).filter (fun v => decide (0 < v))

/-- The positive values as rationals, for the percentile computation. -/
def pvals (g : List (Int × List Int)) : List ℚ :=
  (positiveValues g).map (fun v => (v : ℚ))

/-- numpy percentile with the default linear interpolation method:
sort ascending, take position (n - 1) * q / 100, and interpolate
linearly between the two neighboring order statistics. -/
def npPercentile (l : List ℚ) (q : ℚ) : ℚ :=
  let s := List.insertionSort (fun a b => a ≤ b) l
  let pos := ((l.length : ℚ) - 1) * q / 100
  let i := (⌊pos⌋).toNat
  let frac := pos - (i : ℚ)
  s.getD i 0 + frac * (s.getD (i + 1) (s.getD i 0) - s.getD i 0)

/-- The cell classifier of apply_color_coding_to_table, one branch per
style string.  Cell values are integers, so the pd.isna disjunct of the
first test never fires and is dropped. -/
def color_code_cell (lowT mlowT mhighT highT : ℚ) (v : Int) : Bucket :=
  if v = 0 then Bucket.nodata
  else if (v : ℚ) ≤ lowT then Bucket.veryLow
  else if (v : ℚ) ≤ mlowT then Bucket.low
  else if (v : ℚ) ≤ mhighT then Bucket.medium
  else if (v : ℚ) ≤ highT then Bucket.high
  else Bucket.veryHigh

/-- The bucket assignment of apply_color_coding_to_table: when no
strictly positive value exists the table is returned unstyled, i.e.
every cell renders as no data; otherwise each cell is classified
against the 25th, 50th, 75th and 90th percentiles of the positive
values. -/
def apply_color_coding_to_table (g : List (Int × List Int)) : Int → Nat → Bucket :=
  if (positiveValues g).isEmpty then fun _ _ => Bucket.nodata
  else fun y c =>
    color_code_cell (npPercentile (pvals g) 25) (npPercentile (pvals g) 50)
      (npPercentile (pvals g) 75) (npPercentile (pvals g) 90) (gridCell g y c)

/-- The classification table exactly as the specification words it, for
the refinement statement of the classifier claim: value 0 is no data,
then inclusive upper bounds against the four thresholds, ties going to
the lower bucket. -/
def bucketSpec (p25 p50 p75 p90 : ℚ) (v : Int) : Bucket :=
  if v = 0 then Bucket.nodata
  else if (v : ℚ) ≤ p25 then Bucket.veryLow
  else if (v : ℚ) ≤ p50 then Bucket.low
  else if (v : ℚ) ≤ p75 then Bucket.medium
  else if (v : ℚ) ≤ p90 then Bucket.high
  else Bucket.veryHigh

/-- A raw CSV row as load_market_data sees it after pd.to_datetime with
errors coerce: the date either parsed (modelled as an abstract integer
timestamp) or NaT, and each price column either present or missing. -/
structure RawRecord where
  arrival_date : Option Int
  min_price : Option ℚ
  max_price : Option ℚ
  modal_price : Option ℚ
deriving DecidableEq

/-- A row retained by dropna: date parsed and all three prices present. -/
structure CleanRecord where
  arrival_date : Int
  min_price : ℚ
  max_price : ℚ
  modal_price : ℚ
deriving DecidableEq

/-- The survivor of one raw row, if dropna keeps it. -/
def toClean (r : RawRecord) : Option CleanRecord :=
  match r.arrival_date, r.min_price, r.max_price, r.modal_price with
  | some d, some a, some b, some m => some ⟨d, a, b, m⟩
  | _, _, _, _ => none

/-- The rows dropna keeps, in original order. -/
def cleanRecords (rows : List RawRecord) : List CleanRecord := rows.filterMap toClean

/-- The dropna retention test as a boolean on a raw row. -/
def goodRow (r : RawRecord) : Bool :=
  r.arrival_date.isSome && r.min_price.isSome && r.max_price.isSome && r.modal_price.isSome

/-- Field extraction from a row known to be complete. -/
def extractClean (r : RawRecord) : CleanRecord :=
  ⟨r.arrival_date.getD 0, r.min_price.getD 0, r.max_price.getD 0, r.modal_price.getD 0⟩

/-- Date order on cleaned rows. -/
def dateLe (a b : CleanRecord) : Prop := a.arrival_date ≤ b.arrival_date

instance : DecidableRel dateLe :=
  fun a b => inferInstanceAs (Decidable (a.arrival_date ≤ b.arrival_date))

instance : IsTotal CleanRecord dateLe :=
  ⟨fun a b => Int.le_total a.arrival_date b.arrival_date⟩

instance : IsTrans CleanRecord dateLe :=
  ⟨fun _ _ _ hab hbc => le_trans hab hbc⟩

/-- The guarantee of the cleaning step of load_market_data: the output
is the retained rows sorted ascending by date.  df.sort_values uses the
pandas default quicksort, which promises a sorted permutation but not
stability, so the postcondition is exactly: a permutation of the
retained rows that is sorted by date. -/
def load_market_data_result (rows : List RawRecord) (out : List CleanRecord) : Prop :=
  out.Perm (cleanRecords rows) ∧ out.Pairwise dateLe

/-- Zero noise assignment, used to instantiate witness evaluations. -/
def noise0 : Int → Nat → ℚ := fun _ _ => 0

/-- Witness data for the observed-cell preservation claim. -/
def recsC1 : List Record :=
  [⟨2023, 1, 90, 110, 100⟩, ⟨2023, 13, 160, 200, 180⟩]

/-- Witness data for the interpolation-structure claim. -/
def recsC3 : List Record :=
  [⟨2023, 1, 100, 100, 100⟩, ⟨2023, 13, 180, 180, 180⟩]

/-- Witness data for the single-known-cell claim. -/
def recsC4 : List Record :=
  [⟨2023, 9, 100, 300, 250⟩]

/-- Witness data for the zero-known-cells claim: ISO week 53 maps to no
column, so the year appears with an all-unknown row. -/
def recsC5 : List Record :=
  [⟨2023, 53, 100, 100, 100⟩]

/-- Witness data for the invariants claim. -/
def recsC8 : List Record :=
  [⟨2023, 1, 10, 30, 20⟩, ⟨2023, 2, 10, 30, 24⟩]

/-- Witness grid for the classifier claim. -/
def gridC2 : List (Int × List Int) :=
  [(2023, [50, 80, 120, 200, 400])]

/-- Witness grid with no positive cell for the classifier claim. -/
def gridC2e : List (Int × List Int) :=
  [(2023, [0, 0, 0])]

/-- Witness record in an excluded ISO week for the bucketing claim. -/
def recC10 : Record := ⟨2023, 53, 5, 5, 5⟩

/-- Witness raw rows for the normalization claim: two complete rows
with the same date. -/
def rowsC7 : List RawRecord :=
  [⟨some 10, some 1, some 2, some 3⟩, ⟨some 10, some 4, some 5, some 6⟩]

/-- The tie-swapped ordering of the retained rows of rowsC7: sorted by
date, hence a possible quicksort output, but not the stable order. -/
def outC7 : List CleanRecord :=
  [⟨10, 4, 5, 6⟩, ⟨10, 1, 2, 3⟩]

example : columnWeeks.length = 48 := by decide
example : columns.length = 48 := by rfl
example : roundPy (5/2) = 2 := by norm_num [roundPy]
example : roundPy (7/2) = 4 := by norm_num [roundPy]
example : (0 : ℚ) ≤ 10 := by decide

/-- Rounding an integer value returns that integer: the reassignment
round(year_prices[col_name], 0) of an already rounded cell is the
identity. -/
theorem roundPy_intCast (n : Int) : roundPy ((n : Int) : ℚ) = n := by
  norm_num [roundPy]

/-- Round-half-to-even of a non-negative rational is non-negative. -/
theorem roundPy_nonneg (q : ℚ) (h : 0 ≤ q) : 0 ≤ roundPy q := by
  have hf : 0 ≤ ⌊q⌋ := Int.floor_nonneg.mpr h
  unfold roundPy
  split_ifs <;> omega

/-- The mean of non-negative values is non-negative. -/
theorem mean_nonneg (l : List ℚ) (h : ∀ x ∈ l, 0 ≤ x) : 0 ≤ mean l :=
  div_nonneg (List.sum_nonneg h) (by positivity)

/-- Reading an in-range index of a range map evaluates the function. -/
theorem getD_range_map {α : Type} (f : Nat → α) (n c : Nat) (hc : c < n) (d : α) :
    ((List.range n).map f).getD c d = f c := by
  rw [List.getD_eq_getElem?_getD, List.getElem?_map, List.getElem?_range hc]
  rfl

/-- Reading an in-range index of a constant map gives the constant. -/
theorem getD_map_const {α : Type} (row : List α) (c : Nat) (hc : c < row.length) :
    (row.map (fun _ => (0 : Int))).getD c 0 = 0 := by
  rw [List.getD_eq_getElem?_getD, List.getElem?_map, List.getElem?_eq_getElem hc]
  rfl

/-- Association lookup in a keyed map built over distinct keys. -/
theorem lookup_map_self {β : Type} (l : List Int) (f : Int → β) (y : Int)
    (hy : y ∈ l) (hnd : l.Nodup) :
    (l.map (fun x => (x, f x))).lookup y = some (f y) := by
  induction l with
  | nil => simp at hy
  | cons a l ih =>
    rcases List.mem_cons.mp hy with h | h
    · subst h
      simp [List.lookup]
    · have hne : (y == a) = false := by
        refine beq_eq_false_iff_ne.mpr ?_
        rintro rfl
        exact (List.nodup_cons.mp hnd).1 h
      simp only [List.map_cons, List.lookup, hne]
      exact ih h (List.nodup_cons.mp hnd).2

/-- Association lookup misses keys outside the key list. -/
theorem lookup_map_none {β : Type} (l : List Int) (f : Int → β) (y : Int)
    (hy : y ∉ l) :
    (l.map (fun x => (x, f x))).lookup y = none := by
  induction l with
  | nil => rfl
  | cons a l ih =>
    have hne : (y == a) = false :=
      beq_eq_false_iff_ne.mpr (fun h => hy (h ▸ List.mem_cons_self a l))
    have h2 : y ∉ l := fun h => hy (List.mem_cons_of_mem _ h)
    simp only [List.map_cons, List.lookup, hne]
    exact ih h2

/-- A year appears in the table index exactly when a record has it. -/
theorem mem_yearsOf {records : List Record} {y : Int} :
    y ∈ yearsOf records ↔ y ∈ records.map Record.year := by
  unfold yearsOf
  rw [(List.perm_insertionSort _ _).mem_iff, List.mem_dedup]

/-- The table index has no duplicate years. -/
theorem nodup_yearsOf (records : List Record) : (yearsOf records).Nodup := by
  unfold yearsOf
  exact ((List.perm_insertionSort _ _).nodup_iff).mpr (List.nodup_dedup _)

/-- Reading a cell of the finished table for a present year reads the
filled row of that year. -/
theorem gridCell_create (pt : PriceType) (noise : Int → Nat → ℚ)
    (records : List Record) (y : Int) (hy : y ∈ yearsOf records) (c : Nat) :
    gridCell (create_weekly_price_table pt noise records) y c
      = (fillRow (noise y) (sparseRow pt records y)).getD c 0 := by
  unfold gridCell create_weekly_price_table
  rw [lookup_map_self _ _ _ hy (nodup_yearsOf records)]
  rfl

/-- A sparse row always has the 48 column cells. -/
theorem sparseRow_length (pt : PriceType) (records : List Record) (y : Int) :
    (sparseRow pt records y).length = 48 := by
  simp [sparseRow]

/-- Reading a sparse row at an in-range column gives the cell value. -/
theorem sparseRow_getD (pt : PriceType) (records : List Record) (y : Int)
    (c : Nat) (hc : c < 48) :
    (sparseRow pt records y).getD c none = sparseCell pt records y c :=
  getD_range_map _ 48 c hc none

/-- Membership in the known samples of a row is exactly: an in-range
position holding a stored value. -/
theorem mem_knownPairs {row : List (Option Int)} {i : Nat} {q : ℚ} :
    (i, q) ∈ knownPairs row ↔
      i < row.length ∧ ∃ v : Int, row.getD i none = some v ∧ q = (v : ℚ) := by
  unfold knownPairs
  rw [List.mem_filterMap]
  constructor
  · rintro ⟨j, hj, hfj⟩
    rw [List.mem_range] at hj
    rcases hcell : row.getD j none with _ | v
    · rw [hcell] at hfj
      simp at hfj
    · rw [hcell, Option.map_some'] at hfj
      have h := Option.some.inj hfj
      obtain ⟨h1, h2⟩ := Prod.ext_iff.mp h
      simp only at h1 h2
      exact ⟨h1 ▸ hj, v, h1 ▸ hcell, h2.symm⟩
  · rintro ⟨hi, v, hv, rfl⟩
    exact ⟨i, List.mem_range.mpr hi, by rw [hv]; rfl⟩

/-- The known samples of a row carry strictly increasing positions. -/
theorem knownPairs_pairwise (row : List (Option Int)) :
    (knownPairs row).Pairwise (fun p q => p.1 < q.1) := by
  unfold knownPairs
  refine List.Pairwise.filterMap _ ?_ (List.pairwise_lt_range _)
  intro a b hab c hc d hd
  obtain ⟨v, hv, hcv⟩ := Option.map_eq_some'.mp hc
  obtain ⟨w, hw, hdw⟩ := Option.map_eq_some'.mp hd
  rw [← hcv, ← hdw]
  exact hab

/-- Forward fill preserves the length of the row. -/
theorem ffillGo_length (c : Option Int) (l : List (Option Int)) :
    (ffillGo c l).length = l.length := by
  induction l generalizing c with
  | nil => rfl
  | cons o rest ih => cases o <;> simp [ffillGo, ih]

/-- Every element of a forward fill is the carried value or one of the
original elements. -/
theorem mem_ffillGo {c : Option Int} {l : List (Option Int)} {o : Option Int}
    (h : o ∈ ffillGo c l) : o = c ∨ o ∈ l := by
  induction l generalizing c with
  | nil => simp [ffillGo] at h
  | cons a rest ih =>
    cases a with
    | none =>
      rcases List.mem_cons.mp h with h1 | h2
      · exact Or.inl h1
      · rcases ih h2 with h3 | h3
        · exact Or.inl h3
        · exact Or.inr (List.mem_cons_of_mem _ h3)
    | some v =>
      rcases List.mem_cons.mp h with h1 | h2
      · exact Or.inr (h1 ▸ List.mem_cons_self _ _)
      · rcases ih h2 with h3 | h3
        · exact Or.inr (h3 ▸ List.mem_cons_self _ _)
        · exact Or.inr (List.mem_cons_of_mem _ h3)

/-- Forward filling a row whose known cells all hold v, with carry v,
yields the constant row v. -/
theorem ffillGo_const {v : Int} {l : List (Option Int)}
    (hu : ∀ o ∈ l, o = none ∨ o = some v) :
    ∀ o ∈ ffillGo (some v) l, o = some v := by
  induction l with
  | nil => intro o h; simp [ffillGo] at h
  | cons a rest ih =>
    intro o h
    cases a with
    | none =>
      rcases List.mem_cons.mp h with h1 | h2
      · exact h1
      · exact ih (fun x hx => hu x (List.mem_cons_of_mem _ hx)) o h2
    | some w =>
      have hwv : w = v := by
        rcases hu (some w) (List.mem_cons_self _ _) with h' | h'
        · cases h'
        · exact Option.some.inj h'
      subst hwv
      rcases List.mem_cons.mp h with h1 | h2
      · exact h1
      · exact ih (fun x hx => hu x (List.mem_cons_of_mem _ hx)) o h2

/-- Forward filling a row whose known cells all hold v produces a block
of unknowns followed by a block of v, where the v block is nonempty as
soon as the row holds v somewhere. -/
theorem ffill_uniform {v : Int} {l : List (Option Int)}
    (hu : ∀ o ∈ l, o = none ∨ o = some v) :
    ∃ k m, ffill l = List.replicate k none ++ List.replicate m (some v) ∧
      k + m = l.length ∧ (some v ∈ l → 1 ≤ m) := by
  unfold ffill
  induction l with
  | nil => exact ⟨0, 0, by simp [ffillGo], rfl, by simp⟩
  | cons a rest ih =>
    cases a with
    | none =>
      obtain ⟨k, m, heq, hlen, hex⟩ := ih (fun x hx => hu x (List.mem_cons_of_mem _ hx))
      refine ⟨k + 1, m, ?_, by simp only [List.length_cons]; omega, ?_⟩
      · show none :: ffillGo none rest = _
        rw [heq]
        simp [List.replicate_succ]
      · intro hv
        rcases List.mem_cons.mp hv with h' | h'
        · cases h'
        · exact hex h'
    | some w =>
      have hwv : w = v := by
        rcases hu (some w) (List.mem_cons_self _ _) with h' | h'
        · cases h'
        · exact Option.some.inj h'
      subst hwv
      refine ⟨0, rest.length + 1, ?_, by simp only [List.length_cons]; omega, fun _ => by omega⟩
      show some w :: ffillGo (some w) rest = _
      have hrest : ffillGo (some w) rest = List.replicate rest.length (some w) := by
        refine List.eq_replicate_iff.mpr ⟨ffillGo_length _ _, ?_⟩
        exact ffillGo_const (fun x hx => hu x (List.mem_cons_of_mem _ hx))
      rw [hrest]
      simp [List.replicate_succ]

/-- Backward filling a block of unknowns followed by a nonempty block
of v gives the constant row v. -/
theorem bfill_block (k m : Nat) (v : Int) (hm : 1 ≤ m) :
    bfill (List.replicate k none ++ List.replicate m (some v))
      = List.replicate (k + m) (some v) := by
  unfold bfill
  rw [List.reverse_append, List.reverse_replicate, List.reverse_replicate]
  have h1 : ffillGo none (List.replicate m (some v) ++ List.replicate k none)
      = List.replicate (m + k) (some v) := by
    cases m with
    | zero => omega
    | succ m' =>
      rw [List.replicate_succ, List.cons_append]
      show some v :: ffillGo (some v) (List.replicate m' (some v) ++ List.replicate k none) = _
      have hu : ∀ o ∈ List.replicate m' (some v) ++ List.replicate k none,
          o = none ∨ o = some v := by
        intro o ho
        rcases List.mem_append.mp ho with h | h
        · exact Or.inr (List.eq_of_mem_replicate h)
        · exact Or.inl (List.eq_of_mem_replicate h)
      have htail : ffillGo (some v) (List.replicate m' (some v) ++ List.replicate k none)
          = List.replicate (m' + k) (some v) := by
        refine List.eq_replicate_iff.mpr ⟨?_, ffillGo_const hu⟩
        rw [ffillGo_length]
        simp
      rw [htail]
      have : m' + 1 + k = (m' + k) + 1 := by omega
      rw [this, List.replicate_succ]
  rw [h1, List.reverse_replicate]
  congr 1
  omega

/-- The forward then backward fill of a row whose known cells all hold
v, with at least one known cell, is the constant row v. -/
theorem bfill_ffill_uniform {v : Int} {l : List (Option Int)}
    (hu : ∀ o ∈ l, o = none ∨ o = some v) (hex : some v ∈ l) :
    bfill (ffill l) = List.replicate l.length (some v) := by
  obtain ⟨k, m, heq, hlen, hm⟩ := ffill_uniform hu
  rw [heq, bfill_block k m v (hm hex), hlen]

/-- The filled row always has the same number of cells as the row. -/
theorem fillRow_length (noise : Nat → ℚ) (row : List (Option Int)) :
    (fillRow noise row).length = row.length := by
  unfold fillRow
  split
  · simp
  · split
    · simp [bfill, ffill, ffillGo_length]
    · simp

/-- In the two-or-more-known-cells branch, an observed cell of the
filled row is the re-round of its stored value, i.e. the value itself. -/
theorem fillRow_getD_known (noise : Nat → ℚ) (row : List (Option Int)) (c : Nat) (v : Int)
    (hc : c < row.length) (hv : row.getD c none = some v)
    (h2 : 2 ≤ (knownPairs row).length) :
    (fillRow noise row).getD c 0 = v := by
  unfold fillRow
  rw [if_pos h2, getD_range_map _ _ c hc, hv]
  exact roundPy_intCast v

/-- In the two-or-more-known-cells branch, a missing cell of the filled
row is the jittered, floored, rounded value of the fitted curve at the
cell position. -/
theorem fillRow_getD_unknown (noise : Nat → ℚ) (row : List (Option Int)) (c : Nat)
    (hc : c < row.length) (hv : row.getD c none = none)
    (h2 : 2 ≤ (knownPairs row).length) :
    (fillRow noise row).getD c 0
      = max 0 (roundPy (rowCurve row (c : ℚ) * (1 + noise c))) := by
  unfold fillRow
  rw [if_pos h2, getD_range_map _ _ c hc, hv]

/-- With no known cell the filled row is all zeros. -/
theorem fillRow_getD_empty (noise : Nat → ℚ) (row : List (Option Int)) (c : Nat)
    (h0 : knownPairs row = []) :
    (fillRow noise row).getD c 0 = 0 := by
  unfold fillRow
  rw [h0]
  norm_num

/-- With exactly one known cell, of stored value v, every cell of the
filled row is v. -/
theorem fillRow_single (noise : Nat → ℚ) (row : List (Option Int)) (c₀ : Nat) (v : Int)
    (h1 : knownPairs row = [(c₀, (v : ℚ))]) :
    ∀ c < row.length, (fillRow noise row).getD c 0 = v := by
  intro c hc
  have hu : ∀ o ∈ row, o = none ∨ o = some v := by
    intro o ho
    rcases o with _ | w
    · exact Or.inl rfl
    · obtain ⟨i, hi, hget⟩ := List.mem_iff_getElem.mp ho
      have hD : row.getD i none = some w := by
        rw [List.getD_eq_getElem?_getD, List.getElem?_eq_getElem hi, hget]
        rfl
      have hmem : (i, (w : ℚ)) ∈ knownPairs row :=
        mem_knownPairs.mpr ⟨hi, w, hD, rfl⟩
      rw [h1] at hmem
      rcases List.mem_singleton.mp hmem with h'
      obtain ⟨h1', h2'⟩ := Prod.ext_iff.mp h'
      simp only at h1' h2'
      right
      congr 1
      exact_mod_cast h2'
  have hex : some v ∈ row := by
    have hmem : (c₀, (v : ℚ)) ∈ knownPairs row := by
      rw [h1]; exact List.mem_singleton.mpr rfl
    obtain ⟨hi, w, hD, hw⟩ := mem_knownPairs.mp hmem
    have hwv : w = v := by exact_mod_cast hw.symm
    subst hwv
    have : row[c₀] = some w := by
      have := List.getD_eq_getElem row none hi
      rw [hD] at this
      exact this.symm
    exact this ▸ List.getElem_mem hi
  unfold fillRow
  rw [h1]
  norm_num
  have hbf : bfill (ffill row) = List.replicate row.length (some v) :=
    bfill_ffill_uniform hu hex
  rw [hbf]
  have hcr : c < (List.replicate row.length (some v)).length := by
    simpa using hc
  rw [List.getElem?_eq_getElem hcr, List.getElem_replicate]
  simpa using roundPy_intCast v

/-- On a strictly increasing knot list, the prefix of knots at or below
the knot at index j has exactly j + 1 elements. -/
theorem takeWhile_length_at (xs : List ℚ) (hs : xs.Pairwise (· < ·)) (j : Nat)
    (hj : j < xs.length) :
    (xs.takeWhile (fun x => decide (x ≤ xs.getD j 0))).length = j + 1 := by
  induction xs generalizing j with
  | nil => simp at hj
  | cons a rest ih =>
    obtain ⟨hhead, hrest⟩ := List.pairwise_cons.mp hs
    cases j with
    | zero =>
      simp only [List.getD_cons_zero]
      rw [List.takeWhile_cons]
      simp only [decide_eq_true_eq, le_refl, if_pos]
      cases rest with
      | nil => simp
      | cons b rest2 =>
        have hab : a < b := hhead b (List.mem_cons_self _ _)
        rw [List.takeWhile_cons]
        simp [not_le.mpr hab]
    | succ j' =>
      simp only [List.getD_cons_succ]
      have hj' : j' < rest.length := by simpa using hj
      have hmem : rest.getD j' 0 ∈ rest := by
        rw [List.getD_eq_getElem rest 0 hj']
        exact List.getElem_mem hj'
      have ha : a ≤ rest.getD j' 0 := le_of_lt (hhead _ hmem)
      rw [List.takeWhile_cons]
      simp only [decide_eq_true_eq, ha, if_pos, List.length_cons]
      rw [ih hrest j' hj']

/-- On a strictly increasing knot list, if the knot at index k is at or
below t then the prefix of knots at or below t has more than k
elements. -/
theorem takeWhile_length_ge (xs : List ℚ) (t : ℚ) (hs : xs.Pairwise (· < ·)) (k : Nat)
    (hk : k < xs.length) (hle : xs.getD k 0 ≤ t) :
    k + 1 ≤ (xs.takeWhile (fun x => decide (x ≤ t))).length := by
  induction xs generalizing k with
  | nil => simp at hk
  | cons a rest ih =>
    obtain ⟨hhead, hrest⟩ := List.pairwise_cons.mp hs
    cases k with
    | zero =>
      simp only [List.getD_cons_zero] at hle
      rw [List.takeWhile_cons]
      simp [hle]
    | succ k' =>
      simp only [List.getD_cons_succ] at hle
      have hk' : k' < rest.length := by simpa using hk
      have hmem : rest.getD k' 0 ∈ rest := by
        rw [List.getD_eq_getElem rest 0 hk']
        exact List.getElem_mem hk'
      have ha : a ≤ t := le_of_lt (lt_of_lt_of_le (hhead _ hmem) hle)
      rw [List.takeWhile_cons]
      simp only [decide_eq_true_eq, ha, if_pos, List.length_cons]
      have hrec := ih hrest k' hk' hle
      omega

/-- On a strictly increasing knot list, if t is at or below the first
knot then the prefix of knots at or below t has at most one element. -/
theorem takeWhile_length_le_one (xs : List ℚ) (t : ℚ) (hs : xs.Pairwise (· < ·))
    (ht : t ≤ xs.getD 0 0) :
    (xs.takeWhile (fun x => decide (x ≤ t))).length ≤ 1 := by
  cases xs with
  | nil => simp
  | cons a rest =>
    obtain ⟨hhead, _⟩ := List.pairwise_cons.mp hs
    simp only [List.getD_cons_zero] at ht
    rw [List.takeWhile_cons]
    by_cases hat : a ≤ t
    · simp only [decide_eq_true_eq, hat, if_pos]
      cases rest with
      | nil => simp
      | cons b rest2 =>
        have hb : ¬ b ≤ t := not_le.mpr (lt_of_le_of_lt ht (hhead b (List.mem_cons_self _ _)))
        rw [List.takeWhile_cons]
        simp [hb]
    · simp [hat]

/-- The segment of the knot at index j is j itself, clamped at the last
segment. -/
theorem segIdx_at_knot (xs : List ℚ) (hs : xs.Pairwise (· < ·)) (j : Nat)
    (hj : j < xs.length) :
    segIdx xs (xs.getD j 0) = min (xs.length - 2) j := by
  unfold segIdx
  rw [takeWhile_length_at xs hs j hj]
  simp

/-- Any query at or beyond the next-to-last knot is evaluated on the
last segment. -/
theorem segIdx_right (xs : List ℚ) (t : ℚ) (hs : xs.Pairwise (· < ·))
    (h2 : 2 ≤ xs.length) (ht : xs.getD (xs.length - 2) 0 ≤ t) :
    segIdx xs t = xs.length - 2 := by
  have h := takeWhile_length_ge xs t hs (xs.length - 2) (by omega) ht
  unfold segIdx
  omega

/-- Any query at or before the first knot is evaluated on the first
segment. -/
theorem segIdx_left (xs : List ℚ) (t : ℚ) (hs : xs.Pairwise (· < ·))
    (ht : t ≤ xs.getD 0 0) :
    segIdx xs t = 0 := by
  have h := takeWhile_length_le_one xs t hs ht
  unfold segIdx
  omega

/-- A linear segment passes through its left knot. -/
theorem linearSegEval_at_left (xs ys : List ℚ) (i : Nat) :
    linearSegEval xs ys i (xs.getD i 0) = ys.getD i 0 := by
  unfold linearSegEval
  simp

/-- A linear segment passes through its right knot. -/
theorem linearSegEval_at_right (xs ys : List ℚ) (i : Nat)
    (hne : xs.getD (i + 1) 0 ≠ xs.getD i 0) :
    linearSegEval xs ys i (xs.getD (i + 1) 0) = ys.getD (i + 1) 0 := by
  unfold linearSegEval
  have h : xs.getD (i + 1) 0 - xs.getD i 0 ≠ 0 := sub_ne_zero.mpr hne
  generalize xs.getD i 0 = x0 at h ⊢
  generalize xs.getD (i + 1) 0 = x1 at h ⊢
  generalize ys.getD i 0 = y0
  generalize ys.getD (i + 1) 0 = y1
  field_simp

/-- A cubic spline segment in second-derivative form passes through its
left knot, whatever the second derivatives are. -/
theorem cubicSegEval_at_left (xs ys ms : List ℚ) (i : Nat)
    (hne : xs.getD (i + 1) 0 ≠ xs.getD i 0) :
    cubicSegEval xs ys ms i (xs.getD i 0) = ys.getD i 0 := by
  unfold cubicSegEval
  have h : xs.getD (i + 1) 0 - xs.getD i 0 ≠ 0 := sub_ne_zero.mpr hne
  generalize xs.getD i 0 = x0 at h ⊢
  generalize xs.getD (i + 1) 0 = x1 at h ⊢
  generalize ys.getD i 0 = y0
  generalize ys.getD (i + 1) 0 = y1
  generalize ms.getD i 0 = m0
  generalize ms.getD (i + 1) 0 = m1
  field_simp
  ring

/-- A cubic spline segment in second-derivative form passes through its
right knot, whatever the second derivatives are. -/
theorem cubicSegEval_at_right (xs ys ms : List ℚ) (i : Nat)
    (hne : xs.getD (i + 1) 0 ≠ xs.getD i 0) :
    cubicSegEval xs ys ms i (xs.getD (i + 1) 0) = ys.getD (i + 1) 0 := by
  unfold cubicSegEval
  have h : xs.getD (i + 1) 0 - xs.getD i 0 ≠ 0 := sub_ne_zero.mpr hne
  generalize xs.getD i 0 = x0 at h ⊢
  generalize xs.getD (i + 1) 0 = x1 at h ⊢
  generalize ys.getD i 0 = y0
  generalize ys.getD (i + 1) 0 = y1
  generalize ms.getD i 0 = m0
  generalize ms.getD (i + 1) 0 = m1
  field_simp
  ring

/-- Strictly sorted knots are pairwise distinct position-wise. -/
theorem pairwise_getD_lt (xs : List ℚ) (hs : xs.Pairwise (· < ·)) (i j : Nat)
    (hij : i < j) (hj : j < xs.length) :
    xs.getD i 0 < xs.getD j 0 := by
  have hi : i < xs.length := lt_trans hij hj
  rw [List.getD_eq_getElem xs 0 hi, List.getD_eq_getElem xs 0 hj]
  exact List.pairwise_iff_getElem.mp hs i j hi hj hij

/-- The fitted curve interpolates: at every knot it takes the sample
value, for both the linear and the cubic kind. -/
theorem interp1d_at_knot (xs ys : List ℚ) (cubic : Bool)
    (hs : xs.Pairwise (· < ·)) (h2 : 2 ≤ xs.length) (j : Nat) (hj : j < xs.length) :
    interp1d xs ys cubic (xs.getD j 0) = ys.getD j 0 := by
  by_cases hj2 : j ≤ xs.length - 2
  · have hseg : segIdx xs (xs.getD j 0) = j := by
      rw [segIdx_at_knot xs hs j hj]
      omega
    have hne : xs.getD (j + 1) 0 ≠ xs.getD j 0 :=
      ne_of_gt (pairwise_getD_lt xs hs j (j + 1) (by omega) (by omega))
    unfold interp1d segEvalOf
    rw [hseg]
    cases cubic with
    | false => simpa using linearSegEval_at_left xs ys j
    | true => simpa using cubicSegEval_at_left xs ys (notAKnotM xs ys) j hne
  · have hj1 : j = xs.length - 1 := by omega
    have hj2' : j = (xs.length - 2) + 1 := by omega
    have hseg : segIdx xs (xs.getD j 0) = xs.length - 2 := by
      rw [segIdx_at_knot xs hs j hj]
      omega
    have hne : xs.getD ((xs.length - 2) + 1) 0 ≠ xs.getD (xs.length - 2) 0 :=
      ne_of_gt (pairwise_getD_lt xs hs (xs.length - 2) ((xs.length - 2) + 1) (by omega) (by omega))
    unfold interp1d segEvalOf
    rw [hseg, hj2']
    cases cubic with
    | false => simpa using linearSegEval_at_right xs ys (xs.length - 2) hne
    | true => simpa using cubicSegEval_at_right xs ys (notAKnotM xs ys) (xs.length - 2) hne

/-- Reading an in-range index of a mapped list evaluates the function
at the underlying element. -/
theorem getD_map_getElem {α β : Type} (l : List α) (f : α → β) (j : Nat)
    (hj : j < l.length) (d : β) :
    (l.map f).getD j d = f (l.get ⟨j, hj⟩) := by
  rw [List.getD_eq_getElem?_getD, List.getElem?_map, List.getElem?_eq_getElem hj]
  rfl

/-- The sample x list has one entry per known sample. -/
theorem rowXs_length (row : List (Option Int)) :
    (rowXs row).length = (knownPairs row).length := by
  simp [rowXs]

/-- The sample value list has one entry per known sample. -/
theorem rowYs_length (row : List (Option Int)) :
    (rowYs row).length = (knownPairs row).length := by
  simp [rowYs]

/-- The sample x coordinates are strictly increasing. -/
theorem rowXs_pairwise (row : List (Option Int)) :
    (rowXs row).Pairwise (· < ·) := by
  unfold rowXs
  refine List.Pairwise.map _ ?_ (knownPairs_pairwise row)
  intro a b hab
  exact_mod_cast hab

/-- The fitted curve of a row with at least two known samples passes
through every known sample. -/
theorem rowCurve_interpolates (row : List (Option Int))
    (h2 : 2 ≤ (knownPairs row).length) :
    ∀ p ∈ knownPairs row, rowCurve row (p.1 : ℚ) = p.2 := by
  intro p hp
  obtain ⟨⟨j, hj⟩, hpj⟩ := List.mem_iff_get.mp hp
  have hxlen : 2 ≤ (rowXs row).length := by rw [rowXs_length]; exact h2
  have hjx : j < (rowXs row).length := by rw [rowXs_length]; exact hj
  have hx : (rowXs row).getD j 0 = (p.1 : ℚ) := by
    unfold rowXs
    rw [getD_map_getElem _ _ j hj, hpj]
  have hyv : (rowYs row).getD j 0 = p.2 := by
    unfold rowYs
    rw [getD_map_getElem _ _ j hj, hpj]
  have h := interp1d_at_knot (rowXs row) (rowYs row) (rowKind row)
    (rowXs_pairwise row) hxlen j hjx
  rw [hx, hyv] at h
  exact h

/-- Beyond the first knot the fitted curve is the polynomial of the
first segment: extrapolation on the low side reuses the boundary
piece, with no clamping. -/
theorem rowCurve_extrapolates_left (row : List (Option Int)) (t : ℚ)
    (ht : t ≤ (rowXs row).getD 0 0) :
    rowCurve row t = segEvalOf (rowXs row) (rowYs row) (rowKind row) 0 t := by
  unfold rowCurve interp1d
  rw [segIdx_left _ _ (rowXs_pairwise row) ht]

/-- Beyond the next-to-last knot the fitted curve is the polynomial of
the last segment: extrapolation on the high side reuses the boundary
piece, with no clamping. -/
theorem rowCurve_extrapolates_right (row : List (Option Int)) (t : ℚ)
    (h2 : 2 ≤ (knownPairs row).length)
    (ht : (rowXs row).getD ((rowXs row).length - 2) 0 ≤ t) :
    rowCurve row t
      = segEvalOf (rowXs row) (rowYs row) (rowKind row) ((rowXs row).length - 2) t := by
  unfold rowCurve interp1d
  rw [segIdx_right _ _ (rowXs_pairwise row) (by rw [rowXs_length]; exact h2) ht]

/-- C1: every grid cell populated from at least one observed record
holds exactly the rounded arithmetic mean of those observations in the
final output of create_weekly_price_table; interpolation and jitter
never change such a cell (in the two-or-more-known-cells branch the
cell is re-assigned the round of its own already rounded value, which
equals the original; in the one-known-cell branch the fills preserve
the known cell). -/
theorem C1_observed_cells_preserved (pt : PriceType) (noise : Int → Nat → ℚ)
    (records : List Record) (y : Int) (c : Nat) (m : ℚ)
    (hy : y ∈ yearsOf records) (hc : c < 48)
    (hm : observedMean pt records y c = some m) :
    gridCell (create_weekly_price_table pt noise records) y c = roundPy m := by
  have hsc : sparseCell pt records y c = some (roundPy m) := by
    rw [sparseCell, hm]
    rfl
  have hrowc : (sparseRow pt records y).getD c none = some (roundPy m) := by
    rw [sparseRow_getD pt records y c hc, hsc]
  have hclen : c < (sparseRow pt records y).length := by
    rw [sparseRow_length]
    exact hc
  rw [gridCell_create pt noise records y hy c]
  by_cases hge2 : 2 ≤ (knownPairs (sparseRow pt records y)).length
  · exact fillRow_getD_known (noise y) _ c _ hclen hrowc hge2
  · have hmem : (c, ((roundPy m : Int) : ℚ)) ∈ knownPairs (sparseRow pt records y) :=
      mem_knownPairs.mpr ⟨hclen, roundPy m, hrowc, rfl⟩
    have hpos : 0 < (knownPairs (sparseRow pt records y)).length :=
      List.length_pos.mpr (List.ne_nil_of_mem hmem)
    have h1len : (knownPairs (sparseRow pt records y)).length = 1 := by omega
    obtain ⟨a, ha⟩ := List.length_eq_one.mp h1len
    have hac : a = (c, ((roundPy m : Int) : ℚ)) := by
      rw [ha] at hmem
      exact (List.mem_singleton.mp hmem).symm
    rw [hac] at ha
    exact fillRow_single (noise y) _ c (roundPy m) ha c hclen

/-- C3: a year row with at least 2 known cells fits one interpolating
curve over the known (position, value) samples, cubic exactly when at
least 4 known samples exist and linear otherwise; that single fitted
function interpolates every known sample, supplies every missing cell
through jitter and flooring, and is extended beyond the first and last
known positions by the outermost segment polynomial itself, with no
clamping of the extrapolated range. -/
theorem C3_interpolation_structure (pt : PriceType) (noise : Int → Nat → ℚ)
    (records : List Record) (y : Int)
    (hy : y ∈ yearsOf records)
    (h2 : 2 ≤ (knownPairs (sparseRow pt records y)).length) :
    (rowKind (sparseRow pt records y) = true ↔
      4 ≤ (knownPairs (sparseRow pt records y)).length) ∧
    (∀ p ∈ knownPairs (sparseRow pt records y),
      rowCurve (sparseRow pt records y) (p.1 : ℚ) = p.2) ∧
    (∀ c : Nat, c < 48 → sparseCell pt records y c = none →
      gridCell (create_weekly_price_table pt noise records) y c
        = max 0 (roundPy (rowCurve (sparseRow pt records y) (c : ℚ) * (1 + noise y c)))) ∧
    (∀ t : ℚ, t ≤ (rowXs (sparseRow pt records y)).getD 0 0 →
      rowCurve (sparseRow pt records y) t
        = segEvalOf (rowXs (sparseRow pt records y)) (rowYs (sparseRow pt records y))
            (rowKind (sparseRow pt records y)) 0 t) ∧
    (∀ t : ℚ,
      (rowXs (sparseRow pt records y)).getD ((rowXs (sparseRow pt records y)).length - 2) 0
        ≤ t →
      rowCurve (sparseRow pt records y) t
        = segEvalOf (rowXs (sparseRow pt records y)) (rowYs (sparseRow pt records y))
            (rowKind (sparseRow pt records y)) ((rowXs (sparseRow pt records y)).length - 2) t) := by
  refine ⟨by simp [rowKind], rowCurve_interpolates _ h2, ?_,
    fun t ht => rowCurve_extrapolates_left _ t ht,
    fun t ht => rowCurve_extrapolates_right _ t h2 ht⟩
  intro c hc hcell
  rw [gridCell_create pt noise records y hy c]
  refine fillRow_getD_unknown (noise y) _ c ?_ ?_ h2
  · rw [sparseRow_length]
    exact hc
  · rw [sparseRow_getD pt records y c hc]
    exact hcell

/-- C4: a year row with exactly one known cell, of stored value v, has
every one of its 48 output cells equal to v: forward fill then backward
fill spreads the single value, and the final round leaves it unchanged;
no curve fitting or jitter applies on this branch. -/
theorem C4_single_known_cell (pt : PriceType) (noise : Int → Nat → ℚ)
    (records : List Record) (y : Int) (c0 : Nat) (v : Int)
    (hy : y ∈ yearsOf records)
    (h1 : knownPairs (sparseRow pt records y) = [(c0, (v : ℚ))]) :
    ∀ c < 48, gridCell (create_weekly_price_table pt noise records) y c = v := by
  intro c hc
  rw [gridCell_create pt noise records y hy c]
  refine fillRow_single (noise y) _ c0 v h1 c ?_
  rw [sparseRow_length]
  exact hc

/-- C5: a year row with zero known cells has every one of its 48 output
cells equal to 0 in the final grid. -/
theorem C5_zero_known_cells (pt : PriceType) (noise : Int → Nat → ℚ)
    (records : List Record) (y : Int)
    (hy : y ∈ yearsOf records)
    (h0 : knownPairs (sparseRow pt records y) = []) :
    ∀ c < 48, gridCell (create_weekly_price_table pt noise records) y c = 0 := by
  intro c hc
  rw [gridCell_create pt noise records y hy c]
  exact fillRow_getD_empty (noise y) _ c h0

/-- C6: a selection with zero cleaned records produces a grid with zero
rows; create_weekly_price_table is a total function, so this is a
normal return carrying an explicit empty result, not an error. -/
theorem C6_empty_selection_empty_grid (pt : PriceType) (noise : Int → Nat → ℚ) :
    create_weekly_price_table pt noise [] = [] := rfl

/-- C9: building the table with the Extrapolate Missing Weeks toggle
enabled is the identical computation to building it with the toggle
disabled, for every input and every random draw assignment. -/
theorem C9_extrapolate_toggle_no_effect (pt : PriceType) (noise : Int → Nat → ℚ)
    (records : List Record) :
    run_dashboard_table true pt noise records
      = run_dashboard_table false pt noise records := rfl

/-- C2: the classifier computes the 25th, 50th, 75th and 90th
percentiles over the strictly positive cell values and classifies each
cell by the inclusive-upper-bound table of the specification (value 0
is no data, ties go to the lower bucket); when the grid holds no
strictly positive value every cell classifies as no data. -/
theorem C2_percentile_classifier (g : List (Int × List Int)) (y : Int) (c : Nat) :
    (positiveValues g = [] → apply_color_coding_to_table g y c = Bucket.nodata) ∧
    (positiveValues g ≠ [] →
      apply_color_coding_to_table g y c
        = bucketSpec (npPercentile (pvals g) 25) (npPercentile (pvals g) 50)
            (npPercentile (pvals g) 75) (npPercentile (pvals g) 90) (gridCell g y c)) := by
  constructor
  · intro h
    have h' : (positiveValues g).isEmpty = true := by
      rw [List.isEmpty_iff]
      exact h
    unfold apply_color_coding_to_table
    rw [if_pos h']
  · intro h
    have h' : ¬ (positiveValues g).isEmpty = true := by
      rw [List.isEmpty_iff]
      exact h
    unfold apply_color_coding_to_table
    rw [if_neg h']
    rfl

/-- Every in-range column index names a week of the bucketing table. -/
theorem columnWeek_mem (c : Nat) (hc : c < 48) : columnWeek c ∈ columnWeeks := by
  have hlen : columnWeeks.length = 48 := by decide
  have hc' : c < columnWeeks.length := by omega
  unfold columnWeek
  rw [List.getD_eq_getElem _ _ hc']
  exact List.getElem_mem hc'

/-- A record whose week differs from w never enters the selection of
week w. -/
theorem weekRecords_cons_other (records : List Record) (r : Record) (y : Int) (w : Nat)
    (hw : r.week ≠ w) :
    weekRecords (r :: records) y w = weekRecords records y w := by
  unfold weekRecords
  rw [List.filter_cons]
  simp [hw]

/-- Prepending a record whose ISO week belongs to no column leaves
every cell mean unchanged. -/
theorem observedMean_cons_excluded (pt : PriceType) (records : List Record) (r : Record)
    (y : Int) (c : Nat) (hr : r.week ∉ columnWeeks) (hc : c < 48) :
    observedMean pt (r :: records) y c = observedMean pt records y c := by
  have hw : r.week ≠ columnWeek c := fun h => hr (h ▸ columnWeek_mem c hc)
  unfold observedMean
  rw [weekRecords_cons_other records r y (columnWeek c) hw]

/-- Prepending a record whose ISO week belongs to no column leaves
every sparse row unchanged. -/
theorem sparseRow_cons_excluded (pt : PriceType) (records : List Record) (r : Record)
    (y : Int) (hr : r.week ∉ columnWeeks) :
    sparseRow pt (r :: records) y = sparseRow pt records y := by
  unfold sparseRow
  refine List.map_congr_left ?_
  intro c hcmem
  have hc : c < 48 := List.mem_range.mp hcmem
  unfold sparseCell
  rw [observedMean_cons_excluded pt records r y c hr hc]

/-- Prepending a record whose ISO week belongs to no column leaves
every cell of every already present year unchanged. -/
theorem gridCell_cons_excluded (pt : PriceType) (noise : Int → Nat → ℚ)
    (records : List Record) (r : Record) (y : Int) (c : Nat)
    (hr : r.week ∉ columnWeeks) (hy : y ∈ yearsOf records) :
    gridCell (create_weekly_price_table pt noise (r :: records)) y c
      = gridCell (create_weekly_price_table pt noise records) y c := by
  have hy2 : y ∈ yearsOf (r :: records) := by
    rw [mem_yearsOf] at hy ⊢
    rw [List.map_cons]
    exact List.mem_cons_of_mem _ hy
  rw [gridCell_create pt noise (r :: records) y hy2 c,
    gridCell_create pt noise records y hy c,
    sparseRow_cons_excluded pt records r y hr]

/-- C10: the 48 column week numbers are pairwise distinct, so a cleaned
record matches at most one column; ISO weeks 25, 38, 51, 52 and 53
belong to no column, and a record carrying one of them contributes to
no cell mean and to no cell of any already present year of the final
grid. -/
theorem C10_week_bucket_disjoint :
    columnWeeks.Nodup ∧
    (∀ c < 48, ∀ c2 < 48, columnWeek c = columnWeek c2 → c = c2) ∧
    ((25 : Nat) ∉ columnWeeks ∧ (38 : Nat) ∉ columnWeeks ∧ (51 : Nat) ∉ columnWeeks ∧
      (52 : Nat) ∉ columnWeeks ∧ (53 : Nat) ∉ columnWeeks) ∧
    (∀ (pt : PriceType) (records : List Record) (r : Record) (y : Int) (c : Nat),
      r.week ∉ columnWeeks → c < 48 →
      observedMean pt (r :: records) y c = observedMean pt records y c) ∧
    (∀ (pt : PriceType) (noise : Int → Nat → ℚ) (records : List Record) (r : Record)
      (y : Int) (c : Nat), r.week ∉ columnWeeks → y ∈ yearsOf records →
      gridCell (create_weekly_price_table pt noise (r :: records)) y c
        = gridCell (create_weekly_price_table pt noise records) y c) := by
  refine ⟨by decide, by decide, by decide,
    fun pt records r y c hr hc => observedMean_cons_excluded pt records r y c hr hc,
    fun pt noise records r y c hr hy => gridCell_cons_excluded pt noise records r y c hr hy⟩

/-- A raw row passing the retention test cleans to its extraction. -/
theorem toClean_eq_good (r : RawRecord) (h : goodRow r = true) :
    toClean r = some (extractClean r) := by
  rcases r with ⟨d, a, b, m⟩
  cases d <;> cases a <;> cases b <;> cases m <;> simp_all [goodRow, toClean, extractClean]

/-- A raw row failing the retention test is dropped. -/
theorem toClean_eq_bad (r : RawRecord) (h : goodRow r = false) :
    toClean r = none := by
  rcases r with ⟨d, a, b, m⟩
  cases d <;> cases a <;> cases b <;> cases m <;> simp_all [goodRow, toClean, extractClean]

/-- The retained rows are exactly the rows whose date parses and whose
three prices are present, in original order. -/
theorem cleanRecords_filter (rows : List RawRecord) :
    cleanRecords rows = (rows.filter goodRow).map extractClean := by
  induction rows with
  | nil => rfl
  | cons r rest ih =>
    by_cases hr : goodRow r = true
    · show List.filterMap toClean (r :: rest) = _
      rw [List.filterMap_cons, toClean_eq_good r hr, List.filter_cons_of_pos hr, List.map_cons]
      exact congrArg (extractClean r :: ·) ih
    · have hr' : goodRow r = false := by
        revert hr
        cases goodRow r <;> simp
      show List.filterMap toClean (r :: rest) = _
      rw [List.filterMap_cons, toClean_eq_bad r hr',
        List.filter_cons_of_neg (by rw [hr']; exact Bool.false_ne_true)]
      exact ih

/-- C7 counterexample: two complete raw rows share a date; swapping
them yields a list that is still a permutation of the retained rows and
still sorted by date, hence a possible output of the pandas default
quicksort, yet it differs from the stable sort the claim promises.  The
cleaning and sorting step therefore does not guarantee that equal-date
records keep their original relative order. -/
theorem C7_stable_sort_counterexample :
    load_market_data_result rowsC7 outC7 ∧
    outC7 ≠ List.insertionSort dateLe (cleanRecords rowsC7) := by
  refine ⟨⟨?_, ?_⟩, ?_⟩
  · show outC7.Perm (cleanRecords rowsC7)
    have h1 : cleanRecords rowsC7 = [⟨10, 1, 2, 3⟩, ⟨10, 4, 5, 6⟩] := rfl
    have h2 : outC7 = [⟨10, 4, 5, 6⟩, ⟨10, 1, 2, 3⟩] := rfl
    rw [h1, h2]
    exact List.Perm.swap _ _ _
  · decide
  · decide

/-- C7 amended: normalization retains exactly the rows whose date
parses and whose min, max and modal prices are all present, and its
output is a permutation of those rows sorted ascending by date; the
sort is total (dropping malformed rows is never fatal) but its tie
order is not guaranteed, because df.sort_values uses the pandas default
quicksort. -/
theorem C7_normalization_sorted_permutation (rows : List RawRecord) :
    load_market_data_result rows (List.insertionSort dateLe (cleanRecords rows)) ∧
    cleanRecords rows = (rows.filter goodRow).map extractClean := by
  refine ⟨⟨List.perm_insertionSort dateLe (cleanRecords rows), ?_⟩, cleanRecords_filter rows⟩
  exact List.sorted_insertionSort dateLe (cleanRecords rows)

/-- The selected price of a record with non-negative prices is
non-negative, whichever price type is selected. -/
theorem getPrice_nonneg (pt : PriceType) (r : Record)
    (h : 0 ≤ r.min_price ∧ 0 ≤ r.max_price ∧ 0 ≤ r.modal_price) :
    0 ≤ getPrice pt r := by
  cases pt
  · exact h.2.2
  · exact h.1
  · exact h.2.1

/-- A stored cell value is non-negative when all observed prices of
the selected type are. -/
theorem sparseCell_nonneg (pt : PriceType) (records : List Record) (y : Int) (c : Nat)
    (v : Int) (hprices : ∀ r ∈ records, 0 ≤ getPrice pt r)
    (hv : sparseCell pt records y c = some v) : 0 ≤ v := by
  simp only [sparseCell, observedMean] at hv
  by_cases he : ((weekRecords records y (columnWeek c)).map (getPrice pt)).isEmpty
  · rw [if_pos he] at hv
    simp at hv
  · rw [if_neg he] at hv
    simp only [Option.map_some'] at hv
    have hv' := Option.some.inj hv
    rw [← hv']
    refine roundPy_nonneg _ (mean_nonneg _ ?_)
    intro x hx
    obtain ⟨r, hrmem, hrx⟩ := List.mem_map.mp hx
    have hrec : r ∈ records := List.mem_of_mem_filter hrmem
    exact hrx ▸ hprices r hrec

/-- Every element of a backward fill is unknown or an element of the
input. -/
theorem mem_bfill_of {l : List (Option Int)} {o : Option Int} (h : o ∈ bfill l) :
    o = none ∨ o ∈ l := by
  unfold bfill at h
  rw [List.mem_reverse] at h
  rcases mem_ffillGo h with h1 | h1
  · exact Or.inl h1
  · exact Or.inr (List.mem_reverse.mp h1)

/-- Every element of a forward fill is unknown or an element of the
input. -/
theorem mem_ffill_of {l : List (Option Int)} {o : Option Int} (h : o ∈ ffill l) :
    o = none ∨ o ∈ l :=
  mem_ffillGo h

/-- Every cell the interpolation stage emits is non-negative, provided
the stored values of the row are: observed cells reproduce their
stored value, jittered cells are floored at 0, filled cells copy a
stored value, and the fallback is 0. -/
theorem fillRow_nonneg (noise : Nat → ℚ) (row : List (Option Int))
    (hrow : ∀ v : Int, some v ∈ row → 0 ≤ v) :
    ∀ z ∈ fillRow noise row, 0 ≤ z := by
  intro z hz
  unfold fillRow at hz
  split at hz
  · obtain ⟨i, hi, hzi⟩ := List.mem_map.mp hz
    rw [List.mem_range] at hi
    rcases hcell : row.getD i none with _ | v
    · rw [hcell] at hzi
      rw [← hzi]
      exact le_max_left _ _
    · rw [hcell] at hzi
      have hv : 0 ≤ v := by
        refine hrow v ?_
        have hD := List.getD_eq_getElem row none hi
        rw [hcell] at hD
        exact hD ▸ List.getElem_mem hi
      rw [← hzi]
      show 0 ≤ roundPy ((v : Int) : ℚ)
      rw [roundPy_intCast]
      exact hv
  · split at hz
    · obtain ⟨o, ho, hzo⟩ := List.mem_map.mp hz
      have ho2 : o = none ∨ o ∈ row := by
        rcases mem_bfill_of ho with h1 | h1
        · exact Or.inl h1
        · exact mem_ffill_of h1
      rcases ho2 with rfl | hmem
      · rw [← hzo]
        simp only [Option.getD_none, Int.cast_zero]
        exact roundPy_nonneg 0 le_rfl
      · rcases o with _ | v
        · rw [← hzo]
          simp only [Option.getD_none, Int.cast_zero]
          exact roundPy_nonneg 0 le_rfl
        · have hv : 0 ≤ v := hrow v hmem
          rw [← hzo]
          simpa [roundPy_intCast] using hv
    · obtain ⟨o, ho, hzo⟩ := List.mem_map.mp hz
      rw [← hzo]

/-- C8: for non-negative observed prices, every grid the builder
returns pairs the fixed 48 canonical columns with rows of exactly 48
cells, and every cell value, present or defaulted, is a non-negative
integer: jittered cells are floored at 0 and no step introduces a
negative value. -/
theorem C8_grid_shape_and_nonneg (pt : PriceType) (noise : Int → Nat → ℚ)
    (records : List Record)
    (h : ∀ r ∈ records, 0 ≤ r.min_price ∧ 0 ≤ r.max_price ∧ 0 ≤ r.modal_price) :
    columns.length = 48 ∧
    (∀ y ∈ yearsOf records,
      (((create_weekly_price_table pt noise records).lookup y).getD []).length = 48) ∧
    (∀ (y : Int) (c : Nat), 0 ≤ gridCell (create_weekly_price_table pt noise records) y c) := by
  have hprices : ∀ r ∈ records, 0 ≤ getPrice pt r := fun r hr => getPrice_nonneg pt r (h r hr)
  have hrownn : ∀ y : Int, ∀ v : Int, some v ∈ sparseRow pt records y → 0 ≤ v := by
    intro y v hv
    obtain ⟨c, hcmem, hcv⟩ := List.mem_map.mp hv
    exact sparseCell_nonneg pt records y c v hprices hcv
  refine ⟨rfl, ?_, ?_⟩
  · intro y hy
    unfold create_weekly_price_table
    rw [lookup_map_self _ _ _ hy (nodup_yearsOf records)]
    simp only [Option.getD_some]
    rw [fillRow_length, sparseRow_length]
  · intro y c
    by_cases hy : y ∈ yearsOf records
    · rw [gridCell_create pt noise records y hy c]
      by_cases hc : c < (fillRow (noise y) (sparseRow pt records y)).length
      · rw [List.getD_eq_getElem _ _ hc]
        exact fillRow_nonneg (noise y) _ (hrownn y) _ (List.getElem_mem hc)
      · rw [List.getD_eq_default _ _ (by omega)]
    · unfold gridCell create_weekly_price_table
      rw [lookup_map_none _ _ _ hy]
      exact le_refl 0

/-- A list holding two distinct elements has at least two entries. -/
theorem two_le_length_of_mem_ne {α : Type} {l : List α} {a b : α}
    (ha : a ∈ l) (hb : b ∈ l) (hab : a ≠ b) : 2 ≤ l.length := by
  cases l with
  | nil => simp at ha
  | cons x rest =>
    cases rest with
    | nil =>
      rw [List.mem_singleton] at ha hb
      exact absurd (ha.trans hb.symm) hab
    | cons y rest2 =>
      simp only [List.length_cons]
      omega

/-- Witness for the observed-cell preservation claim: on a concrete
two-record data set the January week 1 cell of 2023 equals the rounded
mean of its single observation. -/
theorem C1_witness :
    gridCell (create_weekly_price_table PriceType.Modal noise0 recsC1) 2023 0
      = roundPy 100 := by
  have h1 : weekRecords recsC1 2023 (columnWeek 0) = [⟨2023, 1, 90, 110, 100⟩] := by decide
  have hm : observedMean PriceType.Modal recsC1 2023 0 = some 100 := by
    unfold observedMean
    rw [h1]
    norm_num [mean, getPrice]
  exact C1_observed_cells_preserved PriceType.Modal noise0 recsC1 2023 0 100
    (by decide) (by decide) hm

/-- Witness for the curve fitting claim: on a concrete row with two
known samples the hypotheses hold and the fitted curve takes the value
100 at sample position 0. -/
theorem C3_witness :
    2 ≤ (knownPairs (sparseRow PriceType.Modal recsC3 2023)).length ∧
    rowCurve (sparseRow PriceType.Modal recsC3 2023) ((0 : Nat) : ℚ) = 100 := by
  have hw0 : weekRecords recsC3 2023 (columnWeek 0) = [⟨2023, 1, 100, 100, 100⟩] := by decide
  have hw12 : weekRecords recsC3 2023 (columnWeek 12) = [⟨2023, 13, 180, 180, 180⟩] := by
    decide
  have hcell0 : sparseCell PriceType.Modal recsC3 2023 0 = some 100 := by
    unfold sparseCell observedMean
    rw [hw0]
    norm_num [mean, getPrice, roundPy]
  have hcell12 : sparseCell PriceType.Modal recsC3 2023 12 = some 180 := by
    unfold sparseCell observedMean
    rw [hw12]
    norm_num [mean, getPrice, roundPy]
  have hmem0 : ((0 : Nat), (100 : ℚ)) ∈ knownPairs (sparseRow PriceType.Modal recsC3 2023) := by
    refine mem_knownPairs.mpr ⟨?_, 100, ?_, by norm_num⟩
    · rw [sparseRow_length]
      norm_num
    · rw [sparseRow_getD _ _ _ 0 (by norm_num)]
      exact hcell0
  have hmem12 : ((12 : Nat), (180 : ℚ)) ∈ knownPairs (sparseRow PriceType.Modal recsC3 2023) := by
    refine mem_knownPairs.mpr ⟨?_, 180, ?_, by norm_num⟩
    · rw [sparseRow_length]
      norm_num
    · rw [sparseRow_getD _ _ _ 12 (by norm_num)]
      exact hcell12
  have h2 : 2 ≤ (knownPairs (sparseRow PriceType.Modal recsC3 2023)).length :=
    two_le_length_of_mem_ne hmem0 hmem12 (by norm_num)
  refine ⟨h2, ?_⟩
  have H := (C3_interpolation_structure PriceType.Modal noise0 recsC3 2023 (by decide) h2).2.1
    ((0 : Nat), (100 : ℚ)) hmem0
  simpa using H

/-- Witness for the single-known-cell claim: a lone March observation
of modal price 250 fills the whole 2023 row with 250; cell 20 shows it. -/
theorem C4_witness :
    gridCell (create_weekly_price_table PriceType.Modal noise0 recsC4) 2023 20 = 250 := by
  have hnone : ∀ c, c < 48 → c ≠ 8 → sparseCell PriceType.Modal recsC4 2023 c = none := by
    decide
  have hw8 : weekRecords recsC4 2023 (columnWeek 8) = [⟨2023, 9, 100, 300, 250⟩] := by decide
  have h8 : sparseCell PriceType.Modal recsC4 2023 8 = some 250 := by
    unfold sparseCell observedMean
    rw [hw8]
    norm_num [mean, getPrice, roundPy]
  have hrow : sparseRow PriceType.Modal recsC4 2023
      = (List.range 48).map (fun c => if c = 8 then some (250 : Int) else none) := by
    unfold sparseRow
    refine List.map_congr_left ?_
    intro c hcmem
    have hc : c < 48 := List.mem_range.mp hcmem
    by_cases h8c : c = 8
    · rw [if_pos h8c, h8c]
      exact h8
    · rw [if_neg h8c]
      exact hnone c hc h8c
  have h1 : knownPairs (sparseRow PriceType.Modal recsC4 2023)
      = [(8, ((250 : Int) : ℚ))] := by
    rw [hrow]
    decide
  exact C4_single_known_cell PriceType.Modal noise0 recsC4 2023 8 250 (by decide) h1
    20 (by norm_num)

/-- Witness for the zero-known-cells claim: a lone ISO week 53 record
creates the 2023 row but populates no cell, so every cell is 0. -/
theorem C5_witness :
    gridCell (create_weekly_price_table PriceType.Modal noise0 recsC5) 2023 0 = 0 := by
  exact C5_zero_known_cells PriceType.Modal noise0 recsC5 2023 (by decide) (by decide)
    0 (by norm_num)

/-- Witness for the classifier claim, covering both the empty-positive
branch and the percentile branch on concrete grids. -/
theorem C2_witness :
    apply_color_coding_to_table gridC2e 2023 0 = Bucket.nodata ∧
    apply_color_coding_to_table gridC2 2023 0
      = bucketSpec (npPercentile (pvals gridC2) 25) (npPercentile (pvals gridC2) 50)
          (npPercentile (pvals gridC2) 75) (npPercentile (pvals gridC2) 90)
          (gridCell gridC2 2023 0) :=
  ⟨(C2_percentile_classifier gridC2e 2023 0).1 (by decide),
   (C2_percentile_classifier gridC2 2023 0).2 (by decide)⟩

/-- Witness for the invariants claim: on a concrete data set the 2023
row has the 48 cells and a sample cell is non-negative. -/
theorem C8_witness :
    (((create_weekly_price_table PriceType.Modal noise0 recsC8).lookup 2023).getD []).length
      = 48 ∧
    0 ≤ gridCell (create_weekly_price_table PriceType.Modal noise0 recsC8) 2023 3 := by
  have H := C8_grid_shape_and_nonneg PriceType.Modal noise0 recsC8 (by decide)
  exact ⟨H.2.1 2023 (by decide), H.2.2 2023 3⟩

/-- Witness for the bucketing claim: a week 53 record leaves the
January week 1 cell mean of an empty data set unchanged. -/
theorem C10_witness :
    observedMean PriceType.Modal (recC10 :: []) 2023 0
      = observedMean PriceType.Modal [] 2023 0 :=
  C10_week_bucket_disjoint.2.2.2.1 PriceType.Modal [] recC10 2023 0 (by decide) (by decide)
